import Mathlib

/-!
Shallow embedding of `transitions/extensions/diagrams.py`: the hierarchy
flattener (`BaseGraph._get_elements`), edge labelling
(`BaseGraph._transition_label`), transition-time restyling
(`TransitionGraphSupport._change_state` and `_flatten`), and the graph
registry (`GraphMachine._get_graph`, `GraphMachine.add_model`).

Python dicts that may lack keys are embedded as structures with `Option`
fields; accessing a missing key (`tran["source"]`, `state["name"]`) is the
`KeyError` that `_get_elements` catches.  Machine integers do not occur.
-/

namespace Diagrams

/-- A transition dict as it appears in machine markup.  `_get_elements`
reads `source`/`dest` (may be missing: `KeyError`), `_transition_label`
reads `label`, `trigger`, `conditions`, `unless`.  `trigger` is always
present in markup, so it is a plain `String`. -/
structure MarkupTran where
  trigger : String
  source : Option String
  dest : Option String
  label : Option String
  conditions : Option (List String)
  unless' : Option (List String)
deriving Repr, DecidableEq

/-- The `initial` entry of a state dict: absent (`state.get("initial", [])`
yields a list), a list (parallel regions), a plain string, or an object
carrying a `name` attribute (`ini.name if hasattr(ini, "name") else ini`). -/
inductive IniField where
  | absent
  | listIni (xs : List String)
  | strIni (s : String)
  | namedIni (s : String)
deriving Repr, DecidableEq

/-- A scope of the markup tree: the root markup or a state dict.
`_get_elements` reads `name` (may be missing: `KeyError`), `initial`,
`transitions`, `children` and `states` (the latter three via `.get`, so a
missing key is just `[]`). -/
inductive MarkupScope where
  | mk (name : Option String) (initial : IniField)
       (transitions : List MarkupTran)
       (children : List MarkupScope)
       (states : List MarkupScope)

def MarkupScope.name : MarkupScope → Option String
  | .mk n _ _ _ _ => n

def MarkupScope.initial : MarkupScope → IniField
  | .mk _ i _ _ _ => i

def MarkupScope.transitions : MarkupScope → List MarkupTran
  | .mk _ _ t _ _ => t

def MarkupScope.children : MarkupScope → List MarkupScope
  | .mk _ _ _ c _ => c

def MarkupScope.states : MarkupScope → List MarkupScope
  | .mk _ _ _ _ s => s

/-- `separator.join(path)` -/
def joinPath (sep : String) (path : List String) : String :=
  String.intercalate sep path

/-- The body of the `if prefix:` branch of `_get_elements` for one
transition: copy it and rewrite `source` (and `dest` when present) by
prefixing with the joined path.  `none` is the `KeyError` raised by
`tran["source"]` when the key is missing. -/
def rewriteTran (sep : String) (pfx : List String) (t : MarkupTran) :
    Option MarkupTran :=
  match t.source with
  | none => none
  | some src =>
    some { t with
            source := some (joinPath sep (pfx ++ [src])),
            dest := match t.dest with
                    | some d => some (joinPath sep (pfx ++ [d]))
                    | none => none }

/-- The `for transition in scope.get("transitions", [])` loop of
`_get_elements`: appends each (possibly rewritten) transition to the
accumulator; the `Bool` result records whether a `KeyError` escaped the
loop (in which case the accumulator holds the entries appended so far). -/
def transLoop (sep : String) (pfx : List String) (acc : List MarkupTran) :
    List MarkupTran → List MarkupTran × Bool
  | [] => (acc, false)
  | t :: ts =>
    if pfx.isEmpty then
      transLoop sep pfx (acc ++ [t]) ts
    else
      match rewriteTran sep pfx t with
      | none => (acc, true)
      | some t2 => transLoop sep pfx (acc ++ [t2]) ts

/-- `ini = ini.name if hasattr(ini, "name") else ini` after the
`not isinstance(ini, list)` test: the name of a single (non-parallel)
initial sub-state, `none` when `initial` is absent or a list. -/
def iniName : IniField → Option String
  | .strIni s => some s
  | .namedIni s => some s
  | .absent => none
  | .listIni _ => none

/-- The synthetic anchor transition built by `_get_elements` for a state
with a single initial sub-state. -/
def mkAnchor (sep : String) (pfx : List String) (nm ini : String) :
    MarkupTran :=
  { trigger := "",
    source := some (joinPath sep (pfx ++ [nm]) ++ "_anchor"),
    dest := some (joinPath sep (pfx ++ [nm, ini])),
    label := none, conditions := none, unless' := none }

/-- The `for state in scope.get("children", []) + scope.get("states", [])`
loop of `_get_elements`.  Accumulates: top-level states (only when the
prefix is empty), anchor transitions, and the `(prefix + [name], state)`
pairs appended to the queue.  The `Bool` records an escaped `KeyError`
(from `state["name"]`); the accumulators then hold what was built before
the failure, matching the mutated Python lists. -/
def stateLoop (sep : String) (pfx : List String) (stAcc : List MarkupScope)
    (trAcc : List MarkupTran) (qAcc : List (List String × MarkupScope)) :
    List MarkupScope →
      List MarkupScope × List MarkupTran ×
        List (List String × MarkupScope) × Bool
  | [] => (stAcc, trAcc, qAcc, false)
  | s :: ss =>
    let stAcc2 := if pfx.isEmpty then stAcc ++ [s] else stAcc
    match iniName s.initial with
    | some ini =>
      match s.name with
      | none => (stAcc2, trAcc, qAcc, true)
      | some nm =>
        let trAcc2 := trAcc ++ [mkAnchor sep pfx nm ini]
        if s.children.isEmpty then
          stateLoop sep pfx stAcc2 trAcc2 qAcc ss
        else
          stateLoop sep pfx stAcc2 trAcc2 (qAcc ++ [(pfx ++ [nm], s)]) ss
    | none =>
      if s.children.isEmpty then
        stateLoop sep pfx stAcc2 trAcc qAcc ss
      else
        match s.name with
        | none => (stAcc2, trAcc, qAcc, true)
        | some nm =>
          stateLoop sep pfx stAcc2 trAcc (qAcc ++ [(pfx ++ [nm], s)]) ss

mutual

/-- Structural size of a markup scope, the basis of the termination
measure of the BFS loop below. -/
def scopeSize : MarkupScope → Nat
  | .mk _ _ _ c s => 1 + scopeListSize c + scopeListSize s

/-- Structural size of a list of markup scopes. -/
def scopeListSize : List MarkupScope → Nat
  | [] => 0
  | a :: as => 1 + scopeSize a + scopeListSize as

end

/-- Termination measure for the BFS queue of `_get_elements`. -/
def queueMeasure (q : List (List String × MarkupScope)) : Nat :=
  (q.map (fun ps => scopeSize ps.2)).sum

theorem queueMeasure_append (a b : List (List String × MarkupScope)) :
    queueMeasure (a ++ b) = queueMeasure a + queueMeasure b := by
  simp [queueMeasure]

theorem scopeListSize_append (a b : List MarkupScope) :
    scopeListSize (a ++ b) = scopeListSize a + scopeListSize b := by
  induction a with
  | nil => simp [scopeListSize]
  | cons x xs ih => simp only [List.cons_append, scopeListSize, List.append_eq, ih]; omega

theorem stateLoop_queue_bound (sep : String) (pfx : List String)
    (ss : List MarkupScope) :
    ∀ (stAcc : List MarkupScope) (trAcc : List MarkupTran)
      (qAcc : List (List String × MarkupScope)),
      queueMeasure (stateLoop sep pfx stAcc trAcc qAcc ss).2.2.1 ≤
        queueMeasure qAcc + scopeListSize ss := by
  induction ss with
  | nil => intro stAcc trAcc qAcc; simp [stateLoop]
  | cons s ss ih =>
    intro stAcc trAcc qAcc
    simp only [stateLoop, scopeListSize]
    split
    · split
      · simp
      · split
        · exact le_trans (ih _ _ _) (by omega)
        · refine le_trans (ih _ _ _) ?_
          rw [queueMeasure_append]
          simp only [queueMeasure, List.map_cons, List.map_nil,
            List.sum_cons, List.sum_nil]
          omega
    · split
      · exact le_trans (ih _ _ _) (by omega)
      · split
        · simp
        · refine le_trans (ih _ _ _) ?_
          rw [queueMeasure_append]
          simp only [queueMeasure, List.map_cons, List.map_nil,
            List.sum_cons, List.sum_nil]
          omega

theorem scope_children_states_bound (sc : MarkupScope) :
    scopeListSize (sc.children ++ sc.states) < scopeSize sc := by
  cases sc with
  | mk n i t c s =>
    rw [scopeListSize_append]
    simp only [MarkupScope.children, MarkupScope.states, scopeSize]
    omega

/-- The queue-processing loop of `BaseGraph._get_elements`: breadth-first
over `(prefix, scope)` pairs, accumulating the `states` and `transitions`
lists.  An escaped `KeyError` lands in the `except` clause, which logs and
returns the lists built so far. -/
def getElementsAux (sep : String) :
    List (List String × MarkupScope) → List MarkupScope → List MarkupTran →
      List MarkupScope × List MarkupTran
  | [], sts, trs => (sts, trs)
  | (pfx, scope) :: rest, sts, trs =>
    let tr := transLoop sep pfx trs scope.transitions
    if tr.2 then (sts, tr.1)
    else
      let sl := stateLoop sep pfx sts tr.1 [] (scope.children ++ scope.states)
      if sl.2.2.2 then (sl.1, sl.2.1)
      else getElementsAux sep (rest ++ sl.2.2.1) sl.1 sl.2.1
termination_by q _ _ => queueMeasure q
decreasing_by
  simp only [queueMeasure_append]
  have hb := stateLoop_queue_bound sep pfx (scope.children ++ scope.states)
    sts (transLoop sep pfx trs scope.transitions).1 []
  have hlt := scope_children_states_bound scope
  simp only [queueMeasure, List.map_cons, List.sum_cons, List.map_nil,
    List.sum_nil] at hb ⊢
  omega

/-- `BaseGraph._get_elements`: flatten the machine markup into the lists of
top-level states and of all (rewritten, anchor-extended) transitions. -/
def getElements (sep : String) (markup : MarkupScope) :
    List MarkupScope × List MarkupTran :=
  getElementsAux sep [([], markup)] [] []

/-- Spec-side description of how `_get_elements` emits one declared
transition: at the root (empty prefix) unmodified, otherwise a copy whose
`source` (and `dest`, exactly when present) is prefixed with the joined
path. -/
def emitTran (sep : String) (pfx : List String) (t : MarkupTran) :
    MarkupTran :=
  if pfx.isEmpty then t
  else { t with
          source := some (joinPath sep (pfx ++ [t.source.getD ""])),
          dest := t.dest.map (fun d => joinPath sep (pfx ++ [d])) }

/-- Spec-side description of the anchor transitions contributed by one
walked state: exactly one when the state has a single (non-list) initial
sub-state and a name, none otherwise. -/
def anchorFor (sep : String) (pfx : List String) (s : MarkupScope) :
    List MarkupTran :=
  match iniName s.initial, s.name with
  | some ini, some nm => [mkAnchor sep pfx nm ini]
  | _, _ => []

/-- Spec-side description of the queue entries contributed by one walked
state list: states with children are enqueued under the extended path. -/
def qAddOf (pfx : List String) : List MarkupScope →
    List (List String × MarkupScope)
  | [] => []
  | s :: ss =>
    (match s.name, s.children.isEmpty with
     | some nm, false => [(pfx ++ [nm], s)]
     | _, _ => []) ++ qAddOf pfx ss

/-- `BaseGraph._transition_label`: the label override or the trigger
name; `" [internal]"` appended when `dest` is missing; a bracketed
condition expression appended when condition display is on and the
transition has a `conditions` or `unless` key. -/
def transitionLabel (showConditions : Bool) (tran : MarkupTran) : String :=
  let edgeLabel := tran.label.getD tran.trigger
  let edgeLabel :=
    if tran.dest.isNone then edgeLabel ++ " [internal]" else edgeLabel
  if showConditions && (tran.conditions.isSome || tran.unless'.isSome) then
    edgeLabel ++ " [" ++
      String.intercalate " & "
        (tran.conditions.getD [] ++
          (tran.unless'.getD []).map (fun u => "!" ++ u)) ++ "]"
  else edgeLabel

/-- The edge label as the specification words it: the override label or
the trigger name, then the `" [internal]"` suffix exactly when there is
no destination, then, when condition display is enabled and the
transition carries conditions or unless guards, a bracketed expression
joining the conditions with `" & "` and prefixing each unless guard with
`"!"`. -/
def transitionLabelSpec (showConditions : Bool) (tran : MarkupTran) :
    String :=
  (tran.label.getD tran.trigger) ++
  (if tran.dest = none then " [internal]" else "") ++
  (if showConditions = true ∧
      (tran.conditions ≠ none ∨ tran.unless' ≠ none) then
    " [" ++
      String.intercalate " & "
        (tran.conditions.getD [] ++
          (tran.unless'.getD []).map (fun u => "!" ++ u)) ++ "]"
  else "")

/-- A Python value held in a model's state attribute: a plain string, an
object carrying a `name` attribute (an `Enum` member or `State`), or a
list/tuple of such values (parallel regions). -/
inductive PyVal where
  | str (s : String)
  | named (nm : String)
  | pylist (xs : List PyVal)
deriving Repr

/-- Modelled from the spec: `transitions.core.listify` is imported from
`transitions.core`, which is not under `src/`.  Per the spec the
current-state attribute "may be a single name or a nested/listed
structure", so a list is taken as-is and a single value is wrapped. -/
def listify : PyVal → List PyVal
  | .pylist xs => xs
  | v => [v]

mutual

/-- One step of `_flatten`: a list element is recursed into, any other
element is yielded as-is. -/
def flattenElem : PyVal → List PyVal
  | .pylist xs => flatten xs
  | .str s => [.str s]
  | .named nm => [.named nm]

/-- `_flatten`: yields the non-list leaves of a nested list structure in
order. -/
def flatten : List PyVal → List PyVal
  | [] => []
  | v :: rest => flattenElem v ++ flatten rest

end

/-- A styling-relevant operation performed on a model's graph. -/
inductive GraphOp where
  | resetStyling
  | setPreviousTransition (src dst : String)
  | stateChangeHooks
  | setNodeStyle (node : String) (style : String)
deriving Repr, DecidableEq

/-- `self.dest if hasattr(state, "name") else state`: the node that
`_change_state` styles for one flattened element of the model's state
attribute.  A `pylist` cannot arise here (`flatten` yields no lists); the
Python code would pass the list object itself, which names no node, so it
is rendered as the empty string. -/
def activeTarget (dest : String) : PyVal → String
  | .str s => s
  | .named _ => dest
  | .pylist _ => ""

/-- Trace of the operations performed by
`TransitionGraphSupport._change_state` for a transition from `source` to
`dest`, where `modelState` is the model's state attribute after the
state change: reset the styling, mark the previous transition, run the
actual state change (with its hooks), then mark each flattened current
state element active. -/
def changeStateTrace (source dest : String) (modelState : PyVal) :
    List GraphOp :=
  [.resetStyling, .setPreviousTransition source dest, .stateChangeHooks] ++
  (flatten (listify modelState)).map
    (fun st => .setNodeStyle (activeTarget dest st) "active")

/-- The styling state of one graph instance: the `set_node_style` calls
applied to it, in order. -/
structure GraphInst where
  styles : List (String × String)
deriving Repr, DecidableEq

/-- A fresh graph, as built by `self.graph_cls(self)`. -/
def newGraph : GraphInst := ⟨[]⟩

/-- An observed model: its identity (`id(model)`), whether it already
exposes a `get_graph` attribute, and its state attribute
(`getattr(model, machine.model_attribute)`; `none` models a missing
attribute, whose access raises `AttributeError`). -/
structure GModel where
  mid : Nat
  hasGetGraph : Bool
  stateAttr : Option PyVal
deriving Repr

/-- The mutable machine-side state of `GraphMachine`: the models
registered with the base machine, the `model_graphs` registry keyed by
model identity, and the models to which `add_model` bound a `get_graph`
partial. -/
structure GMachine where
  models : List Nat
  modelGraphs : List (Nat × GraphInst)
  boundGetGraph : List Nat
deriving Repr

/-- Lookup in the `model_graphs` dict. -/
def assocFind (l : List (Nat × GraphInst)) (k : Nat) : Option GraphInst :=
  match l with
  | [] => none
  | (k2, v) :: rest => if k2 = k then some v else assocFind rest k

/-- Assignment `model_graphs[id(model)] = grph`. -/
def assocSet (l : List (Nat × GraphInst)) (k : Nat) (v : GraphInst) :
    List (Nat × GraphInst) :=
  match l with
  | [] => [(k, v)]
  | (k2, v2) :: rest =>
    if k2 = k then (k, v) :: rest else (k2, v2) :: assocSet rest k v

/-- Log events emitted by `_get_graph`. -/
inductive LogEvent where
  | infoNoActiveState
deriving Repr, DecidableEq

/-- The `for state in _flatten(...)` loop of `_get_graph`'s force-new
branch.  A `str` element is styled active.  An element with a `name`
attribute makes the machine evaluate `self.dest`, which does not exist on
`GraphMachine`, raising `AttributeError` (the `Bool` result); the styles
applied before the failure persist.  A `pylist` cannot arise after
`flatten`. -/
def applyActive (g : GraphInst) : List PyVal → GraphInst × Bool
  | [] => (g, false)
  | .str s :: rest =>
    applyActive { g with styles := g.styles ++ [(s, "active")] } rest
  | .named _ :: _ => (g, true)
  | .pylist _ :: _ => (g, true)

/-- The `force_new` branch of `GraphMachine._get_graph`: build a fresh
graph, cache it under `id(model)` and try to mark the model's current
state(s) active; an `AttributeError` (missing state attribute, or the
machine's missing `self.dest`) is caught and logged as
`"Could not set active state of diagram"`.  The Python code stores the
graph object before styling and mutates it in place; storing the styled
graph is observationally identical. -/
def buildGraph (m : GMachine) (mo : GModel) : GMachine × List LogEvent :=
  match mo.stateAttr with
  | none =>
    ({ m with modelGraphs := assocSet m.modelGraphs mo.mid newGraph },
     [.infoNoActiveState])
  | some st =>
    let gb := applyActive newGraph (flatten (listify st))
    ({ m with modelGraphs := assocSet m.modelGraphs mo.mid gb.1 },
     if gb.2 then [.infoNoActiveState] else [])

/-- `GraphMachine._get_graph(model, title, force_new, show_roi)`: returns
the updated machine, the graph instance handed to the backend
`get_graph` call (the `title` and `show_roi` arguments are passed through
to the backend and not modelled), and the informational log entries.  The
`except KeyError` clause rebuilds with `force_new=True` when no cached
entry exists. -/
def getGraph (m : GMachine) (mo : GModel) (forceNew : Bool) :
    GMachine × GraphInst × List LogEvent :=
  let built := if forceNew then buildGraph m mo else (m, [])
  match assocFind built.1.modelGraphs mo.mid with
  | some g => (built.1, g, built.2)
  | none =>
    let built2 := buildGraph built.1 mo
    (built2.1, (assocFind built2.1.modelGraphs mo.mid).getD newGraph,
     built.2 ++ built2.2)

/-- Modelled from the spec: the base FSM engine's model registration
(`transitions.core.Machine.add_model`, reached via `super()`, is not
under `src/`).  The spec treats the engine as an external collaborator
that observes registered models, so registration is modelled minimally as
recording the model with the machine. -/
def baseAddModel (m : GMachine) (mos : List GModel) : GMachine :=
  { m with models := m.models ++ mos.map (fun mo => mo.mid) }

/-- `GraphMachine.add_model` for a single model (`listify(model)` is then
the singleton; the `self_literal` shortcut for the machine itself is not
modelled).  The base registration runs first; then, if the model already
has a `get_graph` attribute, an `AttributeError` is raised — the error
value carries the machine state at the raise, since mutations made before
it persist.  Otherwise `get_graph` is bound and the graph initialised
with `force_new=True`. -/
def addModel (m : GMachine) (mo : GModel) :
    Except (String × GMachine) GMachine :=
  let m1 := baseAddModel m [mo]
  if mo.hasGetGraph then
    .error
      ("Model already has a get_graph attribute. Graph retrieval cannot be bound.",
       m1)
  else
    let m2 := { m1 with boundGetGraph := m1.boundGetGraph ++ [mo.mid] }
    .ok (getGraph m2 mo true).1

/-- Concrete markup for the C2 counterexample: one top-level state that
declares an initial sub-state but no children. -/
def c2State : MarkupScope := .mk (some "A") (.strIni "x") [] [] []

/-- Root markup holding `c2State`. -/
def c2Markup : MarkupScope := .mk none .absent [] [] [c2State]

/-- Shorthand for a declared markup transition carrying only trigger,
source and dest. -/
def mkTran (trigger src dst : String) : MarkupTran :=
  { trigger := trigger, source := some src, dest := some dst,
    label := none, conditions := none, unless' := none }

/-- An internal markup transition: no `dest` key. -/
def mkInternal (trigger src : String) : MarkupTran :=
  { trigger := trigger, source := some src, dest := none,
    label := none, conditions := none, unless' := none }

/-- Flat machine of the multi-edge scenario: four distinct transitions
between the same pair of states. -/
def c1Markup : MarkupScope :=
  .mk none .absent
    [mkTran "event_0" "a" "b", mkTran "event_1" "a" "b",
     mkTran "event_2" "a" "b", mkTran "event_3" "a" "b"]
    []
    [.mk (some "a") .absent [] [] [], .mk (some "b") .absent [] [] []]

/-- A nested scope reached with a non-empty prefix, holding a regular and
an internal transition. -/
def c3Scope : MarkupScope :=
  .mk (some "P") .absent [mkTran "go" "a" "b", mkInternal "stay" "a"]
    [] []

/-- A malformed transition dict lacking the `source` key. -/
def c8Bad : MarkupTran :=
  { trigger := "broken", source := none, dest := some "b",
    label := none, conditions := none, unless' := none }

/-- A malformed state dict: a single initial sub-state but no `name`
key. -/
def c8BadState : MarkupScope := .mk none (.strIni "x") [] [] []

theorem transLoop_root (sep : String) (ts : List MarkupTran) :
    ∀ acc, transLoop sep [] acc ts = (acc ++ ts, false) := by
  induction ts with
  | nil => intro acc; simp [transLoop]
  | cons t ts ih =>
    intro acc
    simp only [transLoop, List.isEmpty_nil, if_pos rfl, ih]
    simp

theorem transLoop_ok (sep : String) (pfx : List String)
    (ts : List MarkupTran)
    (h : ∀ t ∈ ts, pfx.isEmpty = true ∨ t.source ≠ none) :
    ∀ acc, transLoop sep pfx acc ts =
      (acc ++ ts.map (emitTran sep pfx), false) := by
  induction ts with
  | nil => intro acc; simp [transLoop]
  | cons t ts ih =>
    intro acc
    have ht := h t (by simp)
    have hts : ∀ u ∈ ts, pfx.isEmpty = true ∨ u.source ≠ none := by
      intro u hu; exact h u (by simp [hu])
    by_cases hp : pfx.isEmpty = true
    · rw [List.isEmpty_iff] at hp
      subst hp
      rw [transLoop_root]
      congr 1
      simp only [List.map_cons]
      have hid : ∀ u, emitTran sep [] u = u := by intro u; simp [emitTran]
      rw [hid t, List.map_id'' hid ts]
    · have hsrc : t.source ≠ none := ht.resolve_left hp
      cases hsv : t.source with
      | none => exact absurd hsv hsrc
      | some src =>
        have hemit : emitTran sep pfx t =
            { t with
              source := some (joinPath sep (pfx ++ [src])),
              dest := match t.dest with
                      | some d => some (joinPath sep (pfx ++ [d]))
                      | none => none } := by
          simp only [emitTran, if_neg hp, hsv]
          cases hd : t.dest <;> simp [hd]
        simp only [transLoop, if_neg hp, rewriteTran, hsv]
        rw [ih hts, List.map_cons, hemit]
        simp

theorem transLoop_extends (sep : String) (pfx : List String)
    (ts : List MarkupTran) :
    ∀ acc, ∃ r, (transLoop sep pfx acc ts).1 = acc ++ r := by
  induction ts with
  | nil => intro acc; exact ⟨[], by simp [transLoop]⟩
  | cons t ts ih =>
    intro acc
    by_cases hp : pfx.isEmpty = true
    · simp only [transLoop, if_pos hp]
      obtain ⟨r, hr⟩ := ih (acc ++ [t])
      exact ⟨t :: r, by simp [hr]⟩
    · simp only [transLoop, if_neg hp]
      cases rewriteTran sep pfx t with
      | none => exact ⟨[], by simp⟩
      | some t2 =>
        obtain ⟨r, hr⟩ := ih (acc ++ [t2])
        exact ⟨t2 :: r, by simp [hr]⟩

theorem stateLoop_ok (sep : String) (pfx : List String)
    (ss : List MarkupScope) (h : ∀ s ∈ ss, s.name ≠ none) :
    ∀ stAcc trAcc qAcc,
      stateLoop sep pfx stAcc trAcc qAcc ss =
        ((if pfx.isEmpty then stAcc ++ ss else stAcc),
         trAcc ++ (ss.map (anchorFor sep pfx)).flatten,
         qAcc ++ qAddOf pfx ss, false) := by
  induction ss with
  | nil => intro stAcc trAcc qAcc; simp [stateLoop, qAddOf]
  | cons s ss ih =>
    intro stAcc trAcc qAcc
    have hs := h s (by simp)
    have hss : ∀ u ∈ ss, u.name ≠ none := fun u hu => h u (by simp [hu])
    cases hn : s.name with
    | none => exact absurd hn hs
    | some nm =>
      simp only [stateLoop, hn]
      split
      · rename_i ini hini
        split
        · rename_i hch
          rw [ih hss]
          by_cases hp : pfx = [] <;>
            simp [anchorFor, hini, hn, qAddOf, hch, hp]
        · rename_i hch
          have hchf : s.children.isEmpty = false := by simpa using hch
          rw [ih hss]
          by_cases hp : pfx = [] <;>
            simp [anchorFor, hini, hn, qAddOf, hchf, hp]
      · rename_i hini
        split
        · rename_i hch
          rw [ih hss]
          by_cases hp : pfx = [] <;>
            simp [anchorFor, hini, hn, qAddOf, hch, hp]
        · rename_i hch
          have hchf : s.children.isEmpty = false := by simpa using hch
          rw [ih hss]
          by_cases hp : pfx = [] <;>
            simp [anchorFor, hini, hn, qAddOf, hchf, hp]

theorem stateLoop_trans_extends (sep : String) (pfx : List String)
    (ss : List MarkupScope) :
    ∀ stAcc trAcc qAcc, ∃ rt,
      (stateLoop sep pfx stAcc trAcc qAcc ss).2.1 = trAcc ++ rt := by
  induction ss with
  | nil => intro stAcc trAcc qAcc; exact ⟨[], by simp [stateLoop]⟩
  | cons s ss ih =>
    intro stAcc trAcc qAcc
    simp only [stateLoop]
    split
    · rename_i ini hini
      split
      · exact ⟨[], by simp⟩
      · rename_i nm hn
        split
        · rename_i hch
          obtain ⟨rt, hr⟩ :=
            ih (if pfx.isEmpty = true then stAcc ++ [s] else stAcc)
              (trAcc ++ [mkAnchor sep pfx nm ini]) qAcc
          exact ⟨mkAnchor sep pfx nm ini :: rt, by simpa using hr⟩
        · rename_i hch
          obtain ⟨rt, hr⟩ :=
            ih (if pfx.isEmpty = true then stAcc ++ [s] else stAcc)
              (trAcc ++ [mkAnchor sep pfx nm ini]) (qAcc ++ [(pfx ++ [nm], s)])
          exact ⟨mkAnchor sep pfx nm ini :: rt, by simpa using hr⟩
    · rename_i hini
      split
      · rename_i hch
        obtain ⟨rt, hr⟩ :=
          ih (if pfx.isEmpty = true then stAcc ++ [s] else stAcc) trAcc qAcc
        exact ⟨rt, by simpa using hr⟩
      · rename_i hch
        split
        · exact ⟨[], by simp⟩
        · rename_i nm hn
          obtain ⟨rt, hr⟩ :=
            ih (if pfx.isEmpty = true then stAcc ++ [s] else stAcc) trAcc
              (qAcc ++ [(pfx ++ [nm], s)])
          exact ⟨rt, by simpa using hr⟩

theorem scopeSize_pos (s : MarkupScope) : 1 <= scopeSize s := by
  cases s with
  | mk n i t c st => simp [scopeSize]; omega

theorem getElementsAux_cons (sep : String) (pfx : List String)
    (scope : MarkupScope) (rest : List (List String × MarkupScope))
    (sts : List MarkupScope) (trs : List MarkupTran) :
    getElementsAux sep ((pfx, scope) :: rest) sts trs =
      if (transLoop sep pfx trs scope.transitions).2 = true then
        (sts, (transLoop sep pfx trs scope.transitions).1)
      else
        if (stateLoop sep pfx sts (transLoop sep pfx trs scope.transitions).1
              [] (scope.children ++ scope.states)).2.2.2 = true then
          ((stateLoop sep pfx sts (transLoop sep pfx trs scope.transitions).1
              [] (scope.children ++ scope.states)).1,
           (stateLoop sep pfx sts (transLoop sep pfx trs scope.transitions).1
              [] (scope.children ++ scope.states)).2.1)
        else
          getElementsAux sep
            (rest ++ (stateLoop sep pfx sts
              (transLoop sep pfx trs scope.transitions).1 []
              (scope.children ++ scope.states)).2.2.1)
            (stateLoop sep pfx sts (transLoop sep pfx trs scope.transitions).1
              [] (scope.children ++ scope.states)).1
            (stateLoop sep pfx sts (transLoop sep pfx trs scope.transitions).1
              [] (scope.children ++ scope.states)).2.1 := by
  simp only [getElementsAux]

theorem getElementsAux_trans_extends_bounded (sep : String) (n : Nat) :
    ∀ (q : List (List String × MarkupScope)) (sts : List MarkupScope)
      (trs : List MarkupTran), queueMeasure q <= n →
      ∃ r, (getElementsAux sep q sts trs).2 = trs ++ r := by
  induction n with
  | zero =>
    intro q sts trs hq
    cases q with
    | nil => exact ⟨[], by simp [getElementsAux]⟩
    | cons p rest =>
      exfalso
      have h1 := scopeSize_pos p.2
      simp only [queueMeasure, List.map_cons, List.sum_cons] at hq
      omega
  | succ n ihn =>
    intro q sts trs hq
    cases q with
    | nil => exact ⟨[], by simp [getElementsAux]⟩
    | cons p rest =>
      obtain ⟨pfx, scope⟩ := p
      rw [getElementsAux_cons]
      by_cases hc1 :
          (transLoop sep pfx trs scope.transitions).2 = true
      · rw [if_pos hc1]
        obtain ⟨r, hr⟩ := transLoop_extends sep pfx scope.transitions trs
        exact ⟨r, by simpa using hr⟩
      · rw [if_neg hc1]
        obtain ⟨r1, hr1⟩ := transLoop_extends sep pfx scope.transitions trs
        obtain ⟨rt, hrt⟩ := stateLoop_trans_extends sep pfx
          (scope.children ++ scope.states) sts
          (transLoop sep pfx trs scope.transitions).1 []
        by_cases hc2 :
            (stateLoop sep pfx sts (transLoop sep pfx trs scope.transitions).1
              [] (scope.children ++ scope.states)).2.2.2 = true
        · rw [if_pos hc2]
          exact ⟨r1 ++ rt, by rw [hrt, hr1]; simp⟩
        · rw [if_neg hc2]
          have hbound := stateLoop_queue_bound sep pfx
            (scope.children ++ scope.states) sts
            (transLoop sep pfx trs scope.transitions).1 []
          have hsc := scope_children_states_bound scope
          have hq2 : queueMeasure (rest ++ (stateLoop sep pfx sts
              (transLoop sep pfx trs scope.transitions).1 []
              (scope.children ++ scope.states)).2.2.1) <= n := by
            rw [queueMeasure_append]
            simp only [queueMeasure, List.map_cons, List.sum_cons,
              List.map_nil, List.sum_nil] at hq hbound ⊢
            omega
          obtain ⟨r2, hr2⟩ := ihn
            (rest ++ (stateLoop sep pfx sts
              (transLoop sep pfx trs scope.transitions).1 []
              (scope.children ++ scope.states)).2.2.1)
            (stateLoop sep pfx sts (transLoop sep pfx trs scope.transitions).1
              [] (scope.children ++ scope.states)).1
            (stateLoop sep pfx sts (transLoop sep pfx trs scope.transitions).1
              [] (scope.children ++ scope.states)).2.1 hq2
          exact ⟨r1 ++ rt ++ r2, by rw [hr2, hrt, hr1]; simp⟩

theorem getElementsAux_trans_extends (sep : String)
    (q : List (List String × MarkupScope)) (sts : List MarkupScope)
    (trs : List MarkupTran) :
    ∃ r, (getElementsAux sep q sts trs).2 = trs ++ r :=
  getElementsAux_trans_extends_bounded sep (queueMeasure q) q sts trs le_rfl

/-- In a flat scope list (no initial sub-states, no children) the state
loop only registers the states themselves. -/
theorem stateLoop_flat (sep : String) (pfx : List String)
    (ss : List MarkupScope)
    (h : ∀ s ∈ ss, iniName s.initial = none ∧ s.children = []) :
    ∀ stAcc trAcc qAcc,
      stateLoop sep pfx stAcc trAcc qAcc ss =
        ((if pfx.isEmpty then stAcc ++ ss else stAcc), trAcc, qAcc, false) := by
  induction ss with
  | nil => intro stAcc trAcc qAcc; simp [stateLoop]
  | cons s ss ih =>
    intro stAcc trAcc qAcc
    have h1 := (h s (by simp)).1
    have h2 := (h s (by simp)).2
    have hss : ∀ u ∈ ss, iniName u.initial = none ∧ u.children = [] :=
      fun u hu => h u (by simp [hu])
    simp only [stateLoop, h1, h2, List.isEmpty_nil, if_true]
    rw [ih hss]
    by_cases hp : pfx = [] <;> simp [hp]

theorem getElementsAux_nil (sep : String) (sts : List MarkupScope)
    (trs : List MarkupTran) :
    getElementsAux sep [] sts trs = (sts, trs) := by
  simp [getElementsAux]

/-- C4: for every flattened transition, the computed edge label equals
the label override if present, otherwise the trigger name; the
`" [internal]"` suffix is appended if and only if the transition has no
dest; and when condition display is enabled and the transition carries
conditions or unless guards, a bracketed expression joining the
conditions with `" & "` and prefixing each unless guard with `"!"` is
appended: `_transition_label` coincides with this description. -/
theorem C4_transition_label (showConditions : Bool) (tran : MarkupTran) :
    transitionLabel showConditions tran =
      transitionLabelSpec showConditions tran := by
  unfold transitionLabel transitionLabelSpec
  cases hd : tran.dest <;> cases hc : tran.conditions <;>
    cases hu : tran.unless' <;> cases showConditions <;>
      simp [hd, hc, hu, ← String.append_assoc]

/-- C5: during `_change_state`, the styling operations occur in strict
order — `reset_styling`, then `set_previous_transition(source, dest)`,
then the actual state change running the hooks; every operation after the
state change is an active-node styling, so a graph query made from a
state-change hook observes the reset and previous-marked but not yet
active-marked styling. -/
theorem C5_styling_order (source dest : String) (modelState : PyVal) :
    (changeStateTrace source dest modelState).take 3 =
      [.resetStyling, .setPreviousTransition source dest,
       .stateChangeHooks] ∧
    ∀ op ∈ (changeStateTrace source dest modelState).drop 3,
      ∃ nd, op = GraphOp.setNodeStyle nd "active" := by
  constructor
  · rfl
  · intro op hop
    simp only [changeStateTrace, List.cons_append, List.nil_append,
      List.drop_succ_cons, List.drop_zero, List.mem_map] at hop
    obtain ⟨st, hst, rfl⟩ := hop
    exact ⟨activeTarget dest st, rfl⟩

theorem C5_styling_order_witness :
    (changeStateTrace "a" "b" (.str "b")).take 3 =
      [.resetStyling, .setPreviousTransition "a" "b",
       .stateChangeHooks] ∧
    ∃ nd, GraphOp.setNodeStyle "b" "active" =
      GraphOp.setNodeStyle nd "active" :=
  ⟨(C5_styling_order "a" "b" (.str "b")).1,
   (C5_styling_order "a" "b" (.str "b")).2
     (GraphOp.setNodeStyle "b" "active") (by decide)⟩

/-- C6 fails as stated: flattened state elements that carry a `name`
attribute are not individually marked active — `_change_state` marks the
transition's `dest` instead.  With current states named `A` and `B` and
dest `C`, the flattened set contains the element named `A`, yet no
operation styles node `A`; both active markings target `C`. -/
theorem C6_counterexample :
    flatten (listify (.pylist [.named "A", .named "B"])) =
      [.named "A", .named "B"] ∧
    changeStateTrace "s" "C" (.pylist [.named "A", .named "B"]) =
      [.resetStyling, .setPreviousTransition "s" "C", .stateChangeHooks,
       .setNodeStyle "C" "active", .setNodeStyle "C" "active"] ∧
    GraphOp.setNodeStyle "A" "active" ∉
      changeStateTrace "s" "C" (.pylist [.named "A", .named "B"]) :=
  ⟨rfl, rfl, by decide⟩

/-- C6 amended: after a transition, `_change_state` issues exactly one
active marking per flattened element of the model's state attribute, in
order; a plain string element is marked itself, while an element carrying
a `name` attribute causes the transition's `dest` to be marked in its
place.  In particular every plain element is individually marked
active. -/
theorem C6_active_marking (source dest : String) (modelState : PyVal) :
    (changeStateTrace source dest modelState).drop 3 =
      (flatten (listify modelState)).map
        (fun st => .setNodeStyle (activeTarget dest st) "active") ∧
    (∀ s, PyVal.str s ∈ flatten (listify modelState) →
      GraphOp.setNodeStyle s "active" ∈
        changeStateTrace source dest modelState) ∧
    (∀ nm, PyVal.named nm ∈ flatten (listify modelState) →
      GraphOp.setNodeStyle dest "active" ∈
        changeStateTrace source dest modelState) := by
  refine ⟨rfl, ?_, ?_⟩
  · intro s hs
    simp only [changeStateTrace, List.mem_append, List.mem_map]
    exact Or.inr ⟨.str s, hs, rfl⟩
  · intro nm hnm
    simp only [changeStateTrace, List.mem_append, List.mem_map]
    exact Or.inr ⟨.named nm, hnm, rfl⟩

theorem C6_active_marking_witness :
    GraphOp.setNodeStyle "L1" "active" ∈
      changeStateTrace "a" "b" (.pylist [.str "L1", .str "L2"]) :=
  (C6_active_marking "a" "b" (.pylist [.str "L1", .str "L2"])).2.1 "L1"
    (by simp [listify, flatten, flattenElem])

theorem assocFind_assocSet (l : List (Nat × GraphInst)) (k : Nat)
    (v : GraphInst) : assocFind (assocSet l k v) k = some v := by
  induction l with
  | nil => simp [assocSet, assocFind]
  | cons p rest ih =>
    obtain ⟨k2, v2⟩ := p
    by_cases hk : k2 = k
    · simp [assocSet, assocFind, hk]
    · simp [assocSet, assocFind, hk, ih]

theorem buildGraph_modelGraphs (m : GMachine) (mo : GModel) :
    ∃ g, (buildGraph m mo).1.modelGraphs = assocSet m.modelGraphs mo.mid g := by
  unfold buildGraph
  cases mo.stateAttr with
  | none => exact ⟨newGraph, rfl⟩
  | some st =>
    exact ⟨(applyActive newGraph (flatten (listify st))).1, rfl⟩

/-- C7 amended: registering a model that already exposes `get_graph`
raises the conflict error; the `get_graph` capability is not bound or
overwritten and the graph registry is untouched, but the base machine
registration has already run before the conflict check, so the model has
been recorded with the machine — the failed registration is not free of
side effects. -/
theorem C7_add_model_conflict (m : GMachine) (mo : GModel)
    (h : mo.hasGetGraph = true) :
    addModel m mo =
      .error
        ("Model already has a get_graph attribute. Graph retrieval cannot be bound.",
         baseAddModel m [mo]) ∧
    (baseAddModel m [mo]).boundGetGraph = m.boundGetGraph ∧
    (baseAddModel m [mo]).modelGraphs = m.modelGraphs ∧
    (baseAddModel m [mo]).models = m.models ++ [mo.mid] := by
  refine ⟨?_, rfl, rfl, rfl⟩
  simp [addModel, h]

theorem C7_add_model_conflict_witness :
    addModel ⟨[], [], []⟩ ⟨7, true, none⟩ =
      .error
        ("Model already has a get_graph attribute. Graph retrieval cannot be bound.",
         baseAddModel ⟨[], [], []⟩ [⟨7, true, none⟩]) ∧
    (baseAddModel ⟨[], [], []⟩ [⟨7, true, none⟩]).boundGetGraph =
      GMachine.boundGetGraph ⟨[], [], []⟩ ∧
    (baseAddModel ⟨[], [], []⟩ [⟨7, true, none⟩]).modelGraphs =
      GMachine.modelGraphs ⟨[], [], []⟩ ∧
    (baseAddModel ⟨[], [], []⟩ [⟨7, true, none⟩]).models =
      GMachine.models ⟨[], [], []⟩ ++ [7] :=
  C7_add_model_conflict ⟨[], [], []⟩ ⟨7, true, none⟩ rfl

/-- C7 fails as stated ("the model is left untouched by the failed
registration"): even with the base engine registration modelled
minimally, the machine has already registered the model when the
conflict error is raised — the machine state carried by the error
records the model, unlike the initial machine. -/
theorem C7_counterexample :
    addModel ⟨[], [], []⟩ ⟨7, true, none⟩ =
      .error
        ("Model already has a get_graph attribute. Graph retrieval cannot be bound.",
         ⟨[7], [], []⟩) ∧
    ([7] : List Nat) ≠ [] :=
  ⟨rfl, by decide⟩

/-- C9: whenever the graph is (re)built — `force_new` set, or no cached
entry — and the observed model exposes no queryable state attribute, the
active-styling step is skipped with an informational log entry, and the
graph is still built, cached under the model's identity, and returned
without any active marker. -/
theorem C9_styling_unavailable (m : GMachine) (mo : GModel)
    (forceNew : Bool) (hattr : mo.stateAttr = none)
    (h : forceNew = true ∨ assocFind m.modelGraphs mo.mid = none) :
    (getGraph m mo forceNew).2.1 = newGraph ∧
    (getGraph m mo forceNew).2.1.styles = [] ∧
    assocFind (getGraph m mo forceNew).1.modelGraphs mo.mid =
      some newGraph ∧
    LogEvent.infoNoActiveState ∈ (getGraph m mo forceNew).2.2 := by
  cases forceNew with
  | true => simp [getGraph, buildGraph, hattr, assocFind_assocSet, newGraph]
  | false =>
    rcases h with hf | hnone
    · exact absurd hf (by simp)
    · simp [getGraph, buildGraph, hattr, hnone, assocFind_assocSet,
        newGraph]

theorem C9_styling_unavailable_witness :
    (getGraph ⟨[], [], []⟩ ⟨1, false, none⟩ true).2.1 = newGraph ∧
    (getGraph ⟨[], [], []⟩ ⟨1, false, none⟩ true).2.1.styles = [] ∧
    assocFind (getGraph ⟨[], [], []⟩ ⟨1, false, none⟩ true).1.modelGraphs
      1 = some newGraph ∧
    LogEvent.infoNoActiveState ∈
      (getGraph ⟨[], [], []⟩ ⟨1, false, none⟩ true).2.2 :=
  C9_styling_unavailable ⟨[], [], []⟩ ⟨1, false, none⟩ true rfl
    (Or.inl rfl)

/-- C10: after any `_get_graph` call the per-model registry holds an
entry keyed by the model's identity; and calling with `force_new` unset
on a model with no cached entry lazily builds, caches and returns exactly
what the `force_new` call would. -/
theorem C10_registry_entry (m : GMachine) (mo : GModel)
    (forceNew : Bool) :
    (assocFind (getGraph m mo forceNew).1.modelGraphs mo.mid).isSome =
      true ∧
    (assocFind m.modelGraphs mo.mid = none →
      getGraph m mo false = getGraph m mo true) := by
  constructor
  · obtain ⟨g, hg⟩ := buildGraph_modelGraphs m mo
    cases forceNew with
    | true => simp [getGraph, hg, assocFind_assocSet]
    | false =>
      cases hfind : assocFind m.modelGraphs mo.mid with
      | some g2 => simp [getGraph, hfind]
      | none => simp [getGraph, hfind, hg, assocFind_assocSet]
  · intro hnone
    obtain ⟨g, hg⟩ := buildGraph_modelGraphs m mo
    simp [getGraph, hnone, hg, assocFind_assocSet]

theorem C10_registry_entry_witness :
    getGraph ⟨[], [], []⟩ ⟨1, false, some (.str "A")⟩ false =
      getGraph ⟨[], [], []⟩ ⟨1, false, some (.str "A")⟩ true :=
  (C10_registry_entry ⟨[], [], []⟩ ⟨1, false, some (.str "A")⟩ false).2
    rfl

/-- C1: every transition declared at the scope where flattening starts
produces its own entry, in declaration order, at the head of the
flattened transitions list; and for a flat machine (no initial
sub-states, no children) the flattened transitions are exactly the
declared list — in particular, n distinct transitions sharing the same
(source, dest) pair yield n distinct entries, never merged or
deduplicated. -/
theorem C1_multi_edge_preservation (sep : String) (m : MarkupScope) :
    (∃ rest, (getElements sep m).2 = m.transitions ++ rest) ∧
    ((∀ s ∈ m.children ++ m.states,
        iniName s.initial = none ∧ s.children = []) →
      getElements sep m = (m.children ++ m.states, m.transitions)) := by
  constructor
  · show ∃ rest, (getElementsAux sep [([], m)] [] []).2 = m.transitions ++ rest
    rw [getElementsAux_cons]
    rw [transLoop_root]
    rw [if_neg (by simp)]
    simp only [List.nil_append]
    obtain ⟨rt, hrt⟩ := stateLoop_trans_extends sep []
      (m.children ++ m.states) [] m.transitions []
    by_cases hsl : (stateLoop sep [] [] m.transitions []
        (m.children ++ m.states)).2.2.2 = true
    · rw [if_pos hsl]
      exact ⟨rt, by simpa using hrt⟩
    · rw [if_neg hsl]
      obtain ⟨r2, hr2⟩ := getElementsAux_trans_extends sep
        (stateLoop sep [] [] m.transitions []
          (m.children ++ m.states)).2.2.1
        (stateLoop sep [] [] m.transitions [] (m.children ++ m.states)).1
        (stateLoop sep [] [] m.transitions [] (m.children ++ m.states)).2.1
      exact ⟨rt ++ r2, by rw [hr2, hrt]; simp⟩
  · intro hflat
    have hsl := stateLoop_flat sep [] (m.children ++ m.states) hflat []
      m.transitions []
    simp only [List.isEmpty_nil, if_true, List.nil_append] at hsl
    show getElementsAux sep [([], m)] [] [] = _
    rw [getElementsAux_cons]
    rw [transLoop_root]
    rw [if_neg (by simp)]
    simp only [List.nil_append, hsl]
    simp [getElementsAux_nil]

theorem C1_multi_edge_preservation_witness :
    getElements "." c1Markup =
      (c1Markup.children ++ c1Markup.states, c1Markup.transitions) :=
  (C1_multi_edge_preservation "." c1Markup).2 (by
    intro s hs
    simp only [c1Markup, MarkupScope.children, MarkupScope.states,
      List.nil_append, List.mem_cons, List.not_mem_nil, or_false] at hs
    rcases hs with rfl | rfl <;>
      simp [MarkupScope.initial, MarkupScope.children, iniName])

/-- One error-free BFS step: the scope's transitions are emitted
(rewritten when the prefix is non-empty), followed by one anchor per
state with a single initial sub-state; states are registered at the root
and child-bearing states are enqueued. -/
theorem getElementsAux_cons_ok (sep : String) (pfx : List String)
    (scope : MarkupScope) (rest : List (List String × MarkupScope))
    (sts : List MarkupScope) (trs : List MarkupTran)
    (hnm : ∀ s ∈ scope.children ++ scope.states, s.name ≠ none)
    (hsrc : ∀ t ∈ scope.transitions,
      pfx.isEmpty = true ∨ t.source ≠ none) :
    getElementsAux sep ((pfx, scope) :: rest) sts trs =
      getElementsAux sep
        (rest ++ qAddOf pfx (scope.children ++ scope.states))
        (if pfx.isEmpty = true then sts ++ (scope.children ++ scope.states)
         else sts)
        ((trs ++ scope.transitions.map (emitTran sep pfx)) ++
          ((scope.children ++ scope.states).map
            (anchorFor sep pfx)).flatten) := by
  have htl := transLoop_ok sep pfx scope.transitions hsrc trs
  have hsl := stateLoop_ok sep pfx (scope.children ++ scope.states) hnm
    sts (trs ++ scope.transitions.map (emitTran sep pfx)) []
  rw [getElementsAux_cons]
  simp [htl, hsl]

/-- C2 amended: when a scope is walked (with any prefix, its transitions
rewriting cleanly and its states named), the flattened transitions
continue — right after the scope's own emitted transitions — with the
concatenation of each walked state's anchors: exactly one anchor, with
empty trigger, source `<qualified>_anchor` and dest
`<qualified><separator><initial>`, if and only if the state specifies a
single (non-list) initial sub-state — regardless of whether it declares
children. -/
theorem C2_anchor_iff_single_initial (sep : String) (pfx : List String)
    (scope : MarkupScope) (rest : List (List String × MarkupScope))
    (sts : List MarkupScope) (trs : List MarkupTran)
    (hnm : ∀ s ∈ scope.children ++ scope.states, s.name ≠ none)
    (hsrc : ∀ t ∈ scope.transitions,
      pfx.isEmpty = true ∨ t.source ≠ none) :
    (∃ tail,
      (getElementsAux sep ((pfx, scope) :: rest) sts trs).2 =
        (transLoop sep pfx trs scope.transitions).1 ++
          ((scope.children ++ scope.states).map
            (anchorFor sep pfx)).flatten ++ tail) ∧
    (∀ s nm, s.name = some nm →
      (iniName s.initial = none → anchorFor sep pfx s = []) ∧
      (∀ ini, iniName s.initial = some ini →
        anchorFor sep pfx s = [mkAnchor sep pfx nm ini])) := by
  constructor
  · rw [getElementsAux_cons_ok sep pfx scope rest sts trs hnm hsrc]
    obtain ⟨r2, hr2⟩ := getElementsAux_trans_extends sep
      (rest ++ qAddOf pfx (scope.children ++ scope.states))
      (if pfx.isEmpty = true then sts ++ (scope.children ++ scope.states)
       else sts)
      ((trs ++ scope.transitions.map (emitTran sep pfx)) ++
        ((scope.children ++ scope.states).map
          (anchorFor sep pfx)).flatten)
    refine ⟨r2, ?_⟩
    rw [hr2, transLoop_ok sep pfx scope.transitions hsrc trs]
  · intro s nm hname
    constructor
    · intro hini
      simp [anchorFor, hini]
    · intro ini hini
      simp [anchorFor, hini, hname]

theorem C2_anchor_iff_single_initial_witness :
    anchorFor "." [] c2State = [mkAnchor "." [] "A" "x"] :=
  ((C2_anchor_iff_single_initial "." [] c2Markup [] [] []
      (by simp [c2Markup, c2State, MarkupScope.children,
        MarkupScope.states, MarkupScope.name])
      (by simp [c2Markup, MarkupScope.transitions])).2
    c2State "A" rfl).2 "x" rfl

/-- C2 fails as stated ("if and only if the state declares children and
specifies a non-parallel initial sub-state"): a state with a single
initial sub-state but no children still gets its anchor transition.
`c2State` (named `A`, initial `x`, no children) yields exactly one
flattened transition — the anchor from `A_anchor` to `A.x`. -/
theorem C2_counterexample :
    (getElements "." c2Markup).2 =
      [{ trigger := "", source := some "A_anchor", dest := some "A.x",
         label := none, conditions := none, unless' := none }] ∧
    c2State.children = [] ∧
    (getElements "." c2Markup).1 = [c2State] := by
  have htr : transLoop "." [] [] c2Markup.transitions = ([], false) := rfl
  have hsl : stateLoop "." [] [] [] []
      (c2Markup.children ++ c2Markup.states) =
      ([c2State],
       [{ trigger := "", source := some "A_anchor", dest := some "A.x",
          label := none, conditions := none, unless' := none }],
       [], false) := rfl
  have hfull : getElements "." c2Markup =
      ([c2State],
       [{ trigger := "", source := some "A_anchor", dest := some "A.x",
          label := none, conditions := none, unless' := none }]) := by
    show getElementsAux "." [([], c2Markup)] [] [] = _
    rw [getElementsAux_cons]
    simp only [htr, hsl]
    simp [getElementsAux_nil]
  exact ⟨by rw [hfull], rfl, by rw [hfull]⟩

/-- C3: a transition declared in a scope reached with a non-empty prefix
is emitted as a copy whose source is the prefix path joined with the
declared source by the separator, with dest likewise prefixed exactly
when present (internal transitions keep no dest); transitions declared at
the root (empty prefix) are emitted unmodified, and the emitted block
directly follows the accumulated transitions. -/
theorem C3_prefix_rewriting (sep : String) (pfx : List String)
    (scope : MarkupScope) (rest : List (List String × MarkupScope))
    (sts : List MarkupScope) (trs : List MarkupTran)
    (hsrc : ∀ t ∈ scope.transitions,
      pfx.isEmpty = true ∨ t.source ≠ none) :
    (∃ tail,
      (getElementsAux sep ((pfx, scope) :: rest) sts trs).2 =
        trs ++ scope.transitions.map (emitTran sep pfx) ++ tail) ∧
    (pfx.isEmpty = true →
      scope.transitions.map (emitTran sep pfx) = scope.transitions) ∧
    (∀ t src, pfx.isEmpty = false → t.source = some src →
      emitTran sep pfx t =
        { t with
          source := some (joinPath sep (pfx ++ [src])),
          dest := t.dest.map (fun d => joinPath sep (pfx ++ [d])) }) ∧
    (∀ t, (emitTran sep pfx t).dest = none ↔ t.dest = none) := by
  refine ⟨?_, ?_, ?_, ?_⟩
  · have htl := transLoop_ok sep pfx scope.transitions hsrc trs
    rw [getElementsAux_cons]
    simp only [htl]
    rw [if_neg (by simp)]
    obtain ⟨rt, hrt⟩ := stateLoop_trans_extends sep pfx
      (scope.children ++ scope.states) sts
      (trs ++ scope.transitions.map (emitTran sep pfx)) []
    by_cases hsl2 : (stateLoop sep pfx sts
        (trs ++ scope.transitions.map (emitTran sep pfx)) []
        (scope.children ++ scope.states)).2.2.2 = true
    · rw [if_pos hsl2]
      exact ⟨rt, by rw [hrt]⟩
    · rw [if_neg hsl2]
      obtain ⟨r2, hr2⟩ := getElementsAux_trans_extends sep
        (rest ++ (stateLoop sep pfx sts
          (trs ++ scope.transitions.map (emitTran sep pfx)) []
          (scope.children ++ scope.states)).2.2.1)
        (stateLoop sep pfx sts
          (trs ++ scope.transitions.map (emitTran sep pfx)) []
          (scope.children ++ scope.states)).1
        (stateLoop sep pfx sts
          (trs ++ scope.transitions.map (emitTran sep pfx)) []
          (scope.children ++ scope.states)).2.1
      exact ⟨rt ++ r2, by rw [hr2, hrt]; simp⟩
  · intro hp
    have hid : ∀ u, emitTran sep pfx u = u := by
      intro u; simp [emitTran, hp]
    exact List.map_id'' hid scope.transitions
  · intro t src hp hsv
    simp [emitTran, hp, hsv]
  · intro t
    cases hd : t.dest <;> by_cases hp : pfx.isEmpty = true <;>
      simp [emitTran, hp, hd]

theorem C3_prefix_rewriting_witness :
    emitTran "." ["Top"] (mkTran "go" "a" "b") =
      { mkTran "go" "a" "b" with
        source := some (joinPath "." (["Top"] ++ ["a"])),
        dest := (mkTran "go" "a" "b").dest.map
          (fun d => joinPath "." (["Top"] ++ [d])) } ∧
    ((emitTran "." ["Top"] (mkInternal "stay" "a")).dest = none ↔
      (mkInternal "stay" "a").dest = none) :=
  ⟨(C3_prefix_rewriting "." ["Top"] c3Scope [] [] []
      (by simp [c3Scope, mkTran, mkInternal,
        MarkupScope.transitions])).2.2.1 (mkTran "go" "a" "b") "a" rfl rfl,
   (C3_prefix_rewriting "." ["Top"] c3Scope [] [] []
      (by simp [c3Scope, mkTran, mkInternal,
        MarkupScope.transitions])).2.2.2 (mkInternal "stay" "a")⟩

/-- With a non-empty prefix, the transition loop stops at the first
entry lacking a `source` key, keeping exactly the entries rewritten
before it and reporting the escaped `KeyError`. -/
theorem transLoop_err (sep : String) (pfx : List String)
    (hp : pfx.isEmpty = false)
    (good : List MarkupTran) (hgood : ∀ t ∈ good, t.source ≠ none)
    (bad : MarkupTran) (hbad : bad.source = none)
    (more : List MarkupTran) :
    ∀ acc, transLoop sep pfx acc (good ++ bad :: more) =
      (acc ++ good.map (emitTran sep pfx), true) := by
  induction good with
  | nil =>
    intro acc
    simp [transLoop, hp, rewriteTran, hbad]
  | cons t ts ih =>
    intro acc
    have ht := hgood t (by simp)
    have hts : ∀ u ∈ ts, u.source ≠ none := fun u hu => hgood u (by simp [hu])
    cases hsv : t.source with
    | none => exact absurd hsv ht
    | some src =>
      have hemit : emitTran sep pfx t =
          { t with
            source := some (joinPath sep (pfx ++ [src])),
            dest := match t.dest with
                    | some d => some (joinPath sep (pfx ++ [d]))
                    | none => none } := by
        simp only [emitTran, hp, Bool.false_eq_true, if_false, hsv]
        cases hd : t.dest <;> simp [hd]
      simp only [List.cons_append, List.append_eq, transLoop, hp,
        Bool.false_eq_true, if_false, rewriteTran, hsv]
      rw [ih hts, List.map_cons, hemit]
      simp

/-- At the root, the state loop stops at the first state that has a
single initial sub-state but no `name` key; that state has already been
appended to the states list, the previous states' anchors have been
appended, and the escaped `KeyError` is reported. -/
theorem stateLoop_err (sep : String)
    (goodss : List MarkupScope) (hgood : ∀ s ∈ goodss, s.name ≠ none)
    (bad : MarkupScope) (iniB : String)
    (hbi : iniName bad.initial = some iniB) (hbn : bad.name = none)
    (more : List MarkupScope) :
    ∀ stAcc trAcc qAcc,
      stateLoop sep [] stAcc trAcc qAcc (goodss ++ bad :: more) =
        (stAcc ++ goodss ++ [bad],
         trAcc ++ (goodss.map (anchorFor sep [])).flatten,
         qAcc ++ qAddOf [] goodss, true) := by
  induction goodss with
  | nil =>
    intro stAcc trAcc qAcc
    simp [stateLoop, hbi, hbn, qAddOf]
  | cons s ss ih =>
    intro stAcc trAcc qAcc
    have hs := hgood s (by simp)
    have hss : ∀ u ∈ ss, u.name ≠ none := fun u hu => hgood u (by simp [hu])
    cases hn : s.name with
    | none => exact absurd hn hs
    | some nm =>
      simp only [List.cons_append, List.append_eq, stateLoop, hn]
      split
      · rename_i ini hini
        split
        · rename_i hch
          rw [ih hss]
          simp [anchorFor, hini, hn, qAddOf, hch]
        · rename_i hch
          have hchf : s.children.isEmpty = false := by simpa using hch
          rw [ih hss]
          simp [anchorFor, hini, hn, qAddOf, hchf]
      · rename_i hini
        split
        · rename_i hch
          rw [ih hss]
          simp [anchorFor, hini, hn, qAddOf, hch]
        · rename_i hch
          have hchf : s.children.isEmpty = false := by simpa using hch
          rw [ih hss]
          simp [anchorFor, hini, hn, qAddOf, hchf]

/-- C8: a missing-key failure inside the flattener never propagates —
the `except KeyError` clause returns the states and transitions built
before the failure.  First scenario: in a scope walked with a non-empty
prefix, a transition block whose head entries rewrite cleanly followed by
one lacking `source` yields exactly the rewritten head entries, the run
returning normally with untouched states.  Second scenario: at the root,
a state lacking `name` but declaring a single initial sub-state ends the
walk; the result keeps all states seen so far (that state included) and
the anchors of its predecessors. -/
theorem C8_partial_result (sep : String) (pfx : List String)
    (hp : pfx.isEmpty = false) (nm : Option String) (ini : IniField)
    (good : List MarkupTran) (hgood : ∀ t ∈ good, t.source ≠ none)
    (bad : MarkupTran) (hbad : bad.source = none)
    (more : List MarkupTran) (ch sts0 : List MarkupScope)
    (rest : List (List String × MarkupScope)) (sts : List MarkupScope)
    (trs : List MarkupTran)
    (goodss : List MarkupScope) (hgss : ∀ s ∈ goodss, s.name ≠ none)
    (badst : MarkupScope) (iniB : String)
    (hbi : iniName badst.initial = some iniB) (hbn : badst.name = none)
    (mss : List MarkupScope) (ts : List MarkupTran) :
    getElementsAux sep
        ((pfx, .mk nm ini (good ++ bad :: more) ch sts0) :: rest) sts trs =
      (sts, trs ++ good.map (emitTran sep pfx)) ∧
    getElements sep (.mk none .absent ts [] (goodss ++ badst :: mss)) =
      (goodss ++ [badst], ts ++ (goodss.map (anchorFor sep [])).flatten) := by
  constructor
  · rw [getElementsAux_cons]
    have h := transLoop_err sep pfx hp good hgood bad hbad more trs
    simp only [MarkupScope.transitions, h]
    simp
  · show getElementsAux sep
      [([], .mk none .absent ts [] (goodss ++ badst :: mss))] [] [] = _
    rw [getElementsAux_cons]
    simp only [MarkupScope.transitions, transLoop_root]
    rw [if_neg (by simp)]
    have h2 := stateLoop_err sep goodss hgss badst iniB hbi hbn mss [] ts []
    simp only [MarkupScope.children, MarkupScope.states, List.nil_append,
      h2]
    simp

theorem C8_partial_result_witness :
    getElementsAux "."
        [(["P"], .mk none .absent [mkTran "go" "a" "b", c8Bad] [] [])]
        [] [] =
      ([], [] ++ [mkTran "go" "a" "b"].map (emitTran "." ["P"])) ∧
    getElements "." (.mk none .absent [] [] ([c2State] ++ c8BadState :: [])) =
      ([c2State] ++ [c8BadState],
       [] ++ ([c2State].map (anchorFor "." [])).flatten) :=
  C8_partial_result "." ["P"] rfl none .absent [mkTran "go" "a" "b"]
    (by simp [mkTran]) c8Bad rfl [] [] [] [] [] []
    [c2State] (by simp [c2State, MarkupScope.name]) c8BadState "x" rfl rfl
    [] []

end Diagrams
